import Mathlib

/-!
Verification of the dpctl synchronization engine against its specification.

The development shallowly embeds the relevant Go functions of the dpctl
repository as Lean definitions and proves or refutes the specified
properties.  Decoded JSON values (Go interface trees produced by
json.Unmarshal) are modelled by the inductive type Json; Go maps are
modelled as association lists (Go map iteration order is unspecified, so
list order stands in for one iteration order); run-time panics from failed
type assertions or out-of-range slice indexing are modelled by the
Except GoPanic monad; the file system and the remote file store are
modelled as explicit parameters.
-/

namespace Dpctl

/-- Decoded JSON value, as produced by json.Unmarshal into interface
boxes: nil, bool, float64, string, array, and map.  The numeric payload
is irrelevant to every property below and is modelled as Int. -/
inductive Json where
  | null
  | bool (b : Bool)
  | num (n : Int)
  | str (s : String)
  | arr (elems : List Json)
  | obj (entries : List (String × Json))

/-- Path step for JSONValue (src/util/json.go): a Go string or a Go int. -/
inductive Step where
  | str (s : String)
  | int (i : Int)

/-- A Go run-time panic: a failed type assertion or an out-of-range
slice index. -/
inductive GoPanic where
  | panic

/-- Lookup in a Go map modelled as an association list (first match). -/
def lookupKey : List (String × Json) → String → Option Json
  | [], _ => none
  | (k, v) :: rest, key => if k = key then some v else lookupKey rest key

/-- Embeds JSONValue from src/util/json.go.  A missing map key yields the
nil interface, modelled as Json.null, and the loop continues; a type
mismatch returns nil immediately; indexing a Go slice out of range
(negative or not below the length) panics.  Paths whose steps are neither
string nor int hit the default panic branch of the source and are outside
the Step type. -/
def JSONValue : Json → List Step → Except GoPanic Json
  | c, [] => .ok c
  | c, .str s :: rest =>
    match c with
    | .obj m => JSONValue ((lookupKey m s).getD .null) rest
    | _ => .ok .null
  | c, .int i :: rest =>
    match c with
    | .arr a =>
      if h : 0 ≤ i ∧ i.toNat < a.length then JSONValue (a.get ⟨i.toNat, h.2⟩) rest
      else .error .panic
    | _ => .ok .null

/-- Recognizes the paths on which JSONValue never reaches an out-of-range
slice index: every int step that is applied to an array value is within
bounds.  Steps applied to non-array, non-map values terminate the walk
with nil and are always safe. -/
def safeSteps : Json → List Step → Bool
  | _, [] => true
  | c, .str s :: rest =>
    match c with
    | .obj m => safeSteps ((lookupKey m s).getD .null) rest
    | _ => true
  | c, .int i :: rest =>
    match c with
    | .arr a =>
      if h : 0 ≤ i ∧ i.toNat < a.length then safeSteps (a.get ⟨i.toNat, h.2⟩) rest
      else false
    | _ => true

/-- Modelled from the spec: the total path accessor of section 4.1.  For
each step, descend into a mapping by a string key or into a list by an
integer index; any type, key, or range mismatch yields absent, and
absence propagates silently so the accessor never fails. -/
def valueAtSpec : Json → List Step → Json
  | c, [] => c
  | c, .str s :: rest =>
    match c with
    | .obj m => valueAtSpec ((lookupKey m s).getD .null) rest
    | _ => .null
  | c, .int i :: rest =>
    match c with
    | .arr a =>
      if h : 0 ≤ i ∧ i.toNat < a.length then valueAtSpec (a.get ⟨i.toNat, h.2⟩) rest
      else .null
    | _ => .null

/-! Character-list string primitives mirroring the Go standard library
operations used by the engine.  They are stated on List Char, the
underlying data of String, so that every proof and concrete evaluation
reduces inside the kernel. -/

/-- Embeds strings.Split(s, slash) for the one-character separator used by
RefQName: splitting the empty string yields one empty segment. -/
def splitOnSlash : List Char → List (List Char)
  | [] => [[]]
  | c :: rest =>
    match splitOnSlash rest with
    | [] => [[]]
    | seg :: segs => if c = '/' then [] :: seg :: segs else (c :: seg) :: segs

/-- Embeds strings.Replace(s, pat, rep, 1): replace the leftmost
occurrence of pat, if any.  The patterns passed by updateLinks are never
empty, so the empty-pattern insertion behavior of the Go function does
not arise. -/
def replaceFirstL (pat rep : List Char) : List Char → List Char
  | [] => []
  | c :: cs =>
    if pat <+: (c :: cs) then rep ++ (c :: cs).drop pat.length
    else c :: replaceFirstL pat rep cs

/-- Embeds strings.Contains. -/
def containsSub (s sub : String) : Bool := decide (sub.data <:+: s.data)

/-- Byte-order comparison of Go strings (sort.Strings).  UTF-8 byte order
coincides with code-point order, modelled on the char lists. -/
def leChars : List Char → List Char → Bool
  | [], _ => true
  | _ :: _, [] => false
  | a :: as, b :: bs => if a = b then leChars as bs else decide (a.toNat < b.toNat)

/-- Comparison wrapper on String for sort.Strings. -/
def leStr (a b : String) : Bool := leChars a.data b.data

/-- Embeds the last path segment extraction of WalkFileStore
(src/unnamed/part_003): the substring after the final slash, the whole
string when no slash occurs. -/
def lastSegment (s : String) : String :=
  String.mk ((s.data.reverse.takeWhile (fun c => c ≠ '/')).reverse)

/-! Package registry (src/util/project.go). -/

/-- What os.Stat finds at a path: nothing, a regular file, or a
directory. -/
inductive FSEnt where
  | notExist
  | file
  | dir
deriving DecidableEq

/-- Embeds the Package record: name, absolute directory, priority.  Tags
play no role in the claims below. -/
structure Pkg where
  name : String
  dir : String
  priority : Nat
deriving DecidableEq

/-- Embeds PackageSlice.Less from src/util/project.go: a non-strict
comparison placing lower priorities first. -/
def PackageLess (a b : Pkg) : Bool := decide (a.priority ≤ b.priority)

/-- Embeds the PackageSlice.Sort call made by ProjectPackages and
FilterPackages: a sort whose comparator is PackageLess, hence ascending
priority order. -/
def sortPackages (pkgs : List Pkg) : List Pkg :=
  List.insertionSort (fun a b => PackageLess a b = true) pkgs

/-- Disk path of an object inside a package. -/
def objPath (pkg : Pkg) (qname : String) : String :=
  pkg.dir ++ "/objects/" ++ qname ++ ".json"

/-- Disk path of a file inside a package. -/
def filePath (pkg : Pkg) (path : String) : String :=
  pkg.dir ++ "/files/" ++ path

/-- Embeds GetObjectPackage from src/util/project.go: scan the package
list in order and return the first package whose objects tree holds the
qname as a regular file; a directory at that path is a hard error;
absence everywhere returns none.  The file system is the parameter fs. -/
def GetObjectPackage (fs : String → FSEnt) (pkgs : List Pkg) (qname : String) :
    Except String (Option Pkg) :=
  match pkgs with
  | [] => .ok none
  | pkg :: rest =>
    match fs (objPath pkg qname) with
    | .notExist => GetObjectPackage fs rest qname
    | .dir => .error "invalid package: path is a directory"
    | .file => .ok (some pkg)

/-- Embeds GetFilePackage from src/util/project.go, the analogue of
GetObjectPackage for the files tree. -/
def GetFilePackage (fs : String → FSEnt) (pkgs : List Pkg) (path : String) :
    Except String (Option Pkg) :=
  match pkgs with
  | [] => .ok none
  | pkg :: rest =>
    match fs (filePath pkg path) with
    | .notExist => GetFilePackage fs rest path
    | .dir => .error "invalid package: path is a directory"
    | .file => .ok (some pkg)

/-! Reference extraction (src/util/project.go, RefQName and Depend). -/

/-- Embeds RefQName from src/util/project.go.  A map of size two with
keys href and value: both are asserted to be strings (a failed assertion
panics); then href is split on slashes; a segment count other than six,
or a last segment different from value, is soft and emits nothing; the
match emits segment four, a slash, and value. -/
def RefQName (m : List (String × Json)) : Except GoPanic (Option String) :=
  if m.length ≠ 2 then .ok none
  else
    match lookupKey m "href" with
    | none => .ok none
    | some href =>
      match lookupKey m "value" with
      | none => .ok none
      | some val =>
        match href with
        | .str hrefs =>
          match val with
          | .str vals =>
            let segs := splitOnSlash hrefs.data
            if segs.length ≠ 6 then .ok none
            else if segs.getD 5 [] ≠ vals.data then .ok none
            else .ok (some (String.mk (segs.getD 4 []) ++ "/" ++ vals))
          | _ => .error .panic
        | _ => .error .panic

mutual

/-- Embeds Depend from src/util/project.go, iterating over the entries of
an object body: a map value is either a reference block, which emits its
qname and is not descended, or a plain map, which is descended; a slice
value has its map elements treated the same way; scalars are skipped.
The association-list order stands in for one Go map iteration order. -/
def Depend : List (String × Json) → Except GoPanic (List String)
  | [] => .ok []
  | (_, v) :: rest =>
    match dependValue v with
    | .error p => .error p
    | .ok d =>
      match Depend rest with
      | .error p => .error p
      | .ok ds => .ok (d ++ ds)

/-- One map value inside Depend: the Map and Slice cases of the switch. -/
def dependValue : Json → Except GoPanic (List String)
  | .obj o =>
    match RefQName o with
    | .error p => .error p
    | .ok (some qn) => .ok [qn]
    | .ok none => Depend o
  | .arr a => dependArr a
  | _ => .ok []

/-- Slice elements inside Depend: only map elements are examined, and a
non-map element contributes nothing. -/
def dependArr : List Json → Except GoPanic (List String)
  | [] => .ok []
  | Json.obj o :: rest =>
    match RefQName o with
    | .error p => .error p
    | .ok (some qn) =>
      match dependArr rest with
      | .error p => .error p
      | .ok ds => .ok ([qn] ++ ds)
    | .ok none =>
      match Depend o with
      | .error p => .error p
      | .ok d =>
        match dependArr rest with
        | .error p => .error p
        | .ok ds => .ok (d ++ ds)
  | _ :: rest => dependArr rest

end

/-- Holds when a single map, if it is a size-two candidate reference
block with both keys href and value present, carries strings at both
keys, so that the type assertions of RefQName cannot panic on it. -/
def refTypesOKMap (o : List (String × Json)) : Bool :=
  if o.length = 2 then
    match lookupKey o "href", lookupKey o "value" with
    | some h, some v =>
      (match h with | .str _ => true | _ => false) &&
        (match v with | .str _ => true | _ => false)
    | _, _ => true
  else true

mutual

/-- Holds when every candidate reference block reachable anywhere below
the given entries carries string href and value values. -/
def refTypesOKEntries : List (String × Json) → Bool
  | [] => true
  | (_, v) :: rest => refTypesOKVal v && refTypesOKEntries rest

/-- Value form of refTypesOKEntries. -/
def refTypesOKVal : Json → Bool
  | .obj o => refTypesOKMap o && refTypesOKEntries o
  | .arr a => refTypesOKArr a
  | _ => true

/-- Slice form of refTypesOKEntries. -/
def refTypesOKArr : List Json → Bool
  | [] => true
  | Json.obj o :: rest => (refTypesOKMap o && refTypesOKEntries o) && refTypesOKArr rest
  | _ :: rest => refTypesOKArr rest

end

/-! Link rewriting (updateLinks, src/unnamed/part_002). -/

/-- Search pattern of updateLinks for a domain. -/
def linkPat (domain : String) : List Char :=
  ("/mgmt/config/" ++ domain ++ "/").data

/-- Replacement string of updateLinks. -/
def linkSubst : List Char := "/mgmt/config/\x7bdomain\x7d/".data

/-- Models the v.(string) type assertion on an href value: a non-string
panics. -/
def hrefAssertString : Json → Except GoPanic String
  | Json.str s => .ok s
  | _ => .error .panic

mutual

/-- Embeds updateLinks from src/unnamed/part_002.  Iterating the entries
of a map: the key named underscore-links is deleted and its value is not
descended; at the key href the value is asserted to be a string (a failed
assertion panics) and its first occurrence of the domain pattern is
replaced; other entries have map values rewritten recursively and slice
values rewritten elementwise on their map elements. -/
def updateLinks (domain : String) : List (String × Json) → Except GoPanic (List (String × Json))
  | [] => .ok []
  | (k, v) :: rest =>
    if k = "_links" then updateLinks domain rest
    else if k = "href" then
      match hrefAssertString v with
      | .error p => .error p
      | .ok s =>
        match updateLinks domain rest with
        | .error p => .error p
        | .ok r =>
          .ok ((k, .str (String.mk (replaceFirstL (linkPat domain) linkSubst s.data))) :: r)
    else
      match updateLinksVal domain v with
      | .error p => .error p
      | .ok v2 =>
        match updateLinks domain rest with
        | .error p => .error p
        | .ok r => .ok ((k, v2) :: r)

/-- Map and slice dispatch of updateLinks on one value. -/
def updateLinksVal (domain : String) : Json → Except GoPanic Json
  | .obj o =>
    match updateLinks domain o with
    | .error p => .error p
    | .ok o2 => .ok (.obj o2)
  | .arr a =>
    match updateLinksArr domain a with
    | .error p => .error p
    | .ok a2 => .ok (.arr a2)
  | v => .ok v

/-- Slice elements of updateLinks: only map elements are rewritten, the
others pass through unchanged. -/
def updateLinksArr (domain : String) : List Json → Except GoPanic (List Json)
  | [] => .ok []
  | Json.obj o :: rest =>
    match updateLinks domain o with
    | .error p => .error p
    | .ok o2 =>
      match updateLinksArr domain rest with
      | .error p => .error p
      | .ok r => .ok (Json.obj o2 :: r)
  | v :: rest =>
    match updateLinksArr domain rest with
    | .error p => .error p
    | .ok r => .ok (v :: r)

end

/-- Condition on one href value: it is a string whose single rewrite
leaves no further occurrence of the domain pattern. -/
def updOKHref (domain : String) : Json → Bool
  | Json.str s =>
    decide (¬ linkPat domain <:+: replaceFirstL (linkPat domain) linkSubst s.data)
  | _ => false

mutual

/-- Holds when every href value reachable by the updateLinks traversal is
a string whose single rewrite leaves no further occurrence of the domain
pattern, the condition under which a second pass has nothing left to
rewrite. -/
def updOKEntries (domain : String) : List (String × Json) → Bool
  | [] => true
  | (k, v) :: rest =>
    (if k = "_links" then true
     else if k = "href" then updOKHref domain v
     else updOKVal domain v) && updOKEntries domain rest

/-- Value form of updOKEntries. -/
def updOKVal (domain : String) : Json → Bool
  | .obj o => updOKEntries domain o
  | .arr a => updOKArr domain a
  | _ => true

/-- Slice form of updOKEntries. -/
def updOKArr (domain : String) : List Json → Bool
  | [] => true
  | Json.obj o :: rest => updOKEntries domain o && updOKArr domain rest
  | _ :: rest => updOKArr domain rest

end

/-! Dependency-ordered sort (ObjectInfoSlice.Sort, src/util/project.go).
An ObjectInfo is represented by its qualified name; the memoized Depend
method is represented by the parameter dep, where none models a
dependency-enumeration error, which the source treats as no
dependencies while still emitting the object. -/

/-- Embeds sort.Strings as called by ObjectInfoSlice.Sort. -/
def sortStringsGo (l : List String) : List String :=
  List.insertionSort (fun a b => leStr a b = true) l

/-- Recursion visitor of ObjectInfoSlice.Sort.  The state is the working
map, carried as the list of still-present qnames, and the function
returns the final map together with the emitted qnames in order.  The
processing of one qname first deletes it from the map, then visits each
of its dependencies that is still present, then appends the qname; the
top-level loop over the sorted qnames and the inner loop over a
dependency list have the same shape and share this definition.  The
source recursion terminates because every visit shrinks the map; here the
same recursion is driven by a fuel argument, and sortFuel below always
supplies enough fuel for the zero-fuel branch to be unreachable, which
theorem visitD_spec makes precise through its fuel hypothesis. -/
def visitD (dep : String → Option (List String)) :
    Nat → List String → List String → List String × List String
  | 0, _, m => (m, [])
  | _ + 1, [], m => (m, [])
  | fuel + 1, d :: rest, m =>
    if d ∈ m then
      match dep d with
      | some dds =>
        match visitD dep fuel dds (m.erase d) with
        | (m2, o1) =>
          match visitD dep fuel rest m2 with
          | (m3, o2) => (m3, (o1 ++ [d]) ++ o2)
      | none =>
        match visitD dep fuel rest (m.erase d) with
        | (m3, o2) => (m3, [d] ++ o2)
    else visitD dep fuel rest m

/-- Fuel that dominates the recursion depth of visitD: one unit per
listed qname plus one unit per dependency-list entry of every present
qname. -/
def depCost (dep : String → Option (List String)) (m : List String) : Nat :=
  (m.map (fun q => 1 + ((dep q).getD []).length)).sum

/-- Embeds ObjectInfoSlice.Sort from src/util/project.go: process the
qnames in sorted order through the recursive visitor and return the
emission order. -/
def ObjectInfoSliceSort (dep : String → Option (List String)) (qnames : List String) :
    List String :=
  (visitD dep (qnames.length + depCost dep qnames) (sortStringsGo qnames) qnames).2

/-! Pull and push pipelines (src/unnamed/part_002).  Each pipeline first
enumerates its work items, returning early on an enumeration error, then
dispatches the items, counts per-item failures in an error counter, and
returns an error exactly when the counter is positive.  The semaphore
dispatch is elided: the context is context.TODO, which is never
cancelled, so acquisition never fails, and the per-item outcomes are
given as a list.  The count placeholder of the Go format string is kept
literally in the message. -/

/-- Outcome of one dispatched worker: the per-item function returned nil
or an error. -/
inductive ItemOutcome where
  | success
  | failure
deriving DecidableEq

/-- Number of failed items, the final value of the atomic error
counter. -/
def errorTally : List ItemOutcome → Nat
  | [] => 0
  | .success :: rest => errorTally rest
  | .failure :: rest => 1 + errorTally rest

/-- Embeds pullFiles from src/unnamed/part_002: store listing and walking
may fail before dispatch; afterwards the error count alone decides the
result. -/
def pullFilesRun (enum : Except String (List ItemOutcome)) : Except String Unit × Nat :=
  match enum with
  | .error e => (.error e, 0)
  | .ok work =>
    let n := errorTally work
    if n > 0 then (.error "failed to pull %v files", n) else (.ok (), n)

/-- Embeds pullObjects from src/unnamed/part_002: the status query may
fail before dispatch. -/
def pullObjectsRun (enum : Except String (List ItemOutcome)) : Except String Unit × Nat :=
  match enum with
  | .error e => (.error e, 0)
  | .ok work =>
    let n := errorTally work
    if n > 0 then (.error "failed to pull %v objects", n) else (.ok (), n)

/-- Embeds pushFiles from src/unnamed/part_002: the project scan may fail
before dispatch. -/
def pushFilesRun (enum : Except String (List ItemOutcome)) : Except String Unit × Nat :=
  match enum with
  | .error e => (.error e, 0)
  | .ok work =>
    let n := errorTally work
    if n > 0 then (.error "failed to push %v files", n) else (.ok (), n)

/-- Embeds pushObjects from src/unnamed/part_002: the project scan may
fail before dispatch. -/
def pushObjectsRun (enum : Except String (List ItemOutcome)) : Except String Unit × Nat :=
  match enum with
  | .error e => (.error e, 0)
  | .ok work =>
    let n := errorTally work
    if n > 0 then (.error "failed to push %v objects", n) else (.ok (), n)

/-! Filestore walker (WalkFileStore, src/unnamed/part_003).  The remote
listing is modelled as a tree known in advance; the directory callback is
a pure decision and the file callback a pure error decision, while the
paths of the visited files are collected as the observable trace. -/

/-- One remote file entry as returned by lsFileStore. -/
structure FSFile where
  name : String
  modified : String
  size : Nat
deriving DecidableEq

/-- Remote directory tree: files, then subdirectories keyed by the name
the server reports, of which the walker keeps only the last segment. -/
inductive FSDir where
  | mk (files : List FSFile) (dirs : List (String × FSDir))

/-- Decision of the directory callback: continue, the skip signal
ErrSkipDir, or any other error. -/
inductive DirSig where
  | cont
  | skip
  | fail (e : String)

/-- File phase of one directory of WalkFileStore: visit every file,
aborting on a callback error. -/
def walkFilesPhase (fileCb : String → String → Nat → Option String) (p : String) :
    List FSFile → List String × Option String
  | [] => ([], none)
  | f :: rest =>
    match fileCb (p ++ "/" ++ f.name) f.modified f.size with
    | some e => ([], some e)
    | none =>
      match walkFilesPhase fileCb p rest with
      | (vs, r) => ((p ++ "/" ++ f.name) :: vs, r)

mutual

/-- Embeds the inner recursive function fn of WalkFileStore: list the
current path, visit the files, then loop over the subdirectories. -/
def walkTree (dirCb : String → DirSig) (fileCb : String → String → Nat → Option String)
    (p : String) : FSDir → List String × Option String
  | .mk files dirs =>
    match walkFilesPhase fileCb p files with
    | (vs, some e) => (vs, some e)
    | (vs, none) =>
      match walkDirsLoop dirCb fileCb p dirs with
      | (vs2, r) => (vs ++ vs2, r)

/-- Subdirectory loop of fn.  On the skip signal the source returns nil
from fn, which ends the loop over the remaining sibling subdirectories of
the same parent without error; any other callback error, and any error of
the recursive descent, aborts with that error. -/
def walkDirsLoop (dirCb : String → DirSig) (fileCb : String → String → Nat → Option String)
    (p : String) : List (String × FSDir) → List String × Option String
  | [] => ([], none)
  | (serverName, sub) :: rest =>
    match dirCb (p ++ "/" ++ lastSegment serverName) with
    | .skip => ([], none)
    | .fail e => ([], some e)
    | .cont =>
      match walkTree dirCb fileCb (p ++ "/" ++ lastSegment serverName) sub with
      | (vs, some e) => (vs, some e)
      | (vs, none) =>
        match walkDirsLoop dirCb fileCb p rest with
        | (vs2, r) => (vs ++ vs2, r)

end

/-- Embeds WalkFileStore from src/unnamed/part_003: the directory
callback runs on the root first, where skip aborts the whole walk without
error, then the recursive traversal starts at the root. -/
def WalkFileStore (dirCb : String → DirSig) (fileCb : String → String → Nat → Option String)
    (root : String) (tree : FSDir) : List String × Option String :=
  match dirCb root with
  | .skip => ([], none)
  | .fail e => ([], some e)
  | .cont => walkTree dirCb fileCb root tree

/-! File push classification (pushFile, src/unnamed/part_002). -/

/-- Per-item result classification of the push pipeline. -/
inductive PushRes where
  | error
  | ok
  | new
  | success
  | dryrun
deriving DecidableEq

/-- Embeds the response classification of pushFile from
src/unnamed/part_002: the result field of the PUT response body is read
through JSONValue and asserted to be a string; a body carrying no
string there fails the assertion and panics; otherwise the substring
checks pick updated, created, or the success fallback. -/
def pushFileClassify (res : Json) : Except GoPanic PushRes :=
  match JSONValue res [Step.str "result"] with
  | .ok (.str resStr) =>
    if containsSub resStr "File was updated" then .ok .ok
    else if containsSub resStr "File was created" then .ok .new
    else .ok .success
  | _ => .error .panic

/-! Concrete fixtures used by the closed evaluations below. -/

/-- Lower-priority package owning the shared object and file. -/
def pkgA : Pkg := ⟨"A", "/proj/A", 1⟩

/-- Higher-priority package owning the shared object and file. -/
def pkgB : Pkg := ⟨"B", "/proj/B", 2⟩

/-- File system in which both packages hold objects/svc/x.json and
files/local/a.txt as regular files. -/
def fsBoth : String → FSEnt := fun p =>
  if p = "/proj/A/objects/svc/x.json" ∨ p = "/proj/B/objects/svc/x.json" ∨
      p = "/proj/A/files/local/a.txt" ∨ p = "/proj/B/files/local/a.txt"
  then .file else .notExist

/-- Href holding two occurrences of the domain-d pattern. -/
def cexHref0 : String := "/mgmt/config/d/a/mgmt/config/d/b"

/-- The href above after one updateLinks pass. -/
def cexHref1 : String := "/mgmt/config/\x7bdomain\x7d/a/mgmt/config/d/b"

/-- The href above after two updateLinks passes. -/
def cexHref2 : String := "/mgmt/config/\x7bdomain\x7d/a/mgmt/config/\x7bdomain\x7d/b"

/-- Object body on which updateLinks is a fixed point after one pass:
a rewritable href, a links entry, and a nested mapping. -/
def linkFixBody : List (String × Json) :=
  [("href", Json.str "/mgmt/config/d/a"),
   ("_links", Json.obj [("self", Json.obj [("href", Json.str "/mgmt/config/d/a")])]),
   ("x", Json.obj [("href", Json.str "plain"), ("name", Json.str "n")])]

/-- Body whose candidate reference blocks all carry string href and
value entries. -/
def refsOKBody : List (String × Json) :=
  [("a", Json.obj [("href", Json.str "/mgmt/config/default/XMLFW/svc"), ("value", Json.str "svc")]),
   ("b", Json.arr [Json.obj [("href", Json.str "/mgmt/config/x/y"), ("value", Json.str "y")],
                   Json.str "scalar"]),
   ("c", Json.num 3)]

/-- Two-object dependency cycle. -/
def depCyc : String → Option (List String)
  | "a" => some ["b"]
  | "b" => some ["a"]
  | _ => none

/-- Three-object dependency chain with an explicit empty list at the
bottom. -/
def depChain : String → Option (List String)
  | "svc/a" => some ["svc/b"]
  | "svc/b" => some ["svc/c"]
  | "svc/c" => some []
  | _ => none

/-- Rank function witnessing that depChain is acyclic on its set. -/
def rkChain : String → Nat := fun q =>
  if q = "svc/a" then 2 else if q = "svc/b" then 1 else 0

/-- Dependency function with one object whose enumeration fails. -/
def depW : String → Option (List String)
  | "a" => some ["b"]
  | "b" => some []
  | _ => none

/-- Remote tree with two sibling subdirectories under the store root, of
which only the second holds a file; the server reports the second with an
absolute-looking name. -/
def cexTree : FSDir := .mk [] [("d1", .mk [] []), ("local/d2", .mk [⟨"x", "2018", 1⟩] [])]

/-- Directory callback that skips only the first subdirectory. -/
def cexDirCb : String → DirSig := fun p => if p = "store/d1" then .skip else .cont

/-- File callback that always succeeds. -/
def okFileCb : String → String → Nat → Option String := fun _ _ _ => none

/-- Directory callback that never skips. -/
def contAllCb : String → DirSig := fun _ => .cont

/-! Theorems.  Helper lemmas come first, then one theorem per claim with
its witness or counterexample. -/

/-- C1: the spec states that when two packages both own an object on
disk, GetObjectPackage applied to the priority-sorted package list
returns the higher-priority one, and GetFilePackage behaves analogously.
The comparator PackageSlice.Less of the source is non-strict and orders
ascending priorities even though its own comment announces decreasing
priority order, so the scan meets the lowest-priority owner first: with
packages A at priority 1 and B at priority 2 both owning svc/x and
local/a.txt, the sorted order is A before B and both lookups return A,
the lower-priority package. -/
theorem getObjectPackage_returns_lowest_priority_owner :
    sortPackages [pkgB, pkgA] = [pkgA, pkgB] ∧
    fsBoth (objPath pkgA "svc/x") = FSEnt.file ∧
    fsBoth (objPath pkgB "svc/x") = FSEnt.file ∧
    GetObjectPackage fsBoth (sortPackages [pkgB, pkgA]) "svc/x" = Except.ok (some pkgA) ∧
    fsBoth (filePath pkgA "local/a.txt") = FSEnt.file ∧
    fsBoth (filePath pkgB "local/a.txt") = FSEnt.file ∧
    GetFilePackage fsBoth (sortPackages [pkgB, pkgA]) "local/a.txt" = Except.ok (some pkgA) ∧
    pkgA.priority < pkgB.priority :=
  ⟨by decide, rfl, rfl, rfl, rfl, rfl, rfl, by decide⟩

/-- C2 counterexample: the claim states that JSONValue never fails, in
particular for an integer step applied to a list whatever the value of
the integer; indexing the empty list at zero panics instead. -/
theorem jsonValue_out_of_range_panics :
    JSONValue (Json.arr []) [Step.int 0] = Except.error GoPanic.panic := rfl

/-- C2 amended: JSONValue never fails and returns the value reached by
descending, with absence propagating silently through mismatches,
provided every integer step that is applied to a list value is within
bounds; on such paths it agrees with the total accessor of the
specification. -/
theorem jsonValue_ok_on_safe_paths :
    ∀ (p : List Step) (j : Json), safeSteps j p = true →
      JSONValue j p = Except.ok (valueAtSpec j p) := by
  intro p
  induction p with
  | nil => intro j _; rfl
  | cons s rest ih =>
    intro j h
    cases s with
    | str k =>
      cases j <;> simp only [JSONValue, valueAtSpec, safeSteps] at h ⊢
      exact ih _ h
    | int i =>
      cases j <;> simp only [JSONValue, valueAtSpec, safeSteps] at h ⊢
      split at h
      · next hb => simp only [dif_pos hb]; exact ih _ h
      · exact absurd h (by simp)

/-- C2 witness: a concrete safe path through a mapping and a list. -/
theorem jsonValue_ok_on_safe_paths_witness :
    safeSteps (Json.obj [("a", Json.arr [Json.str "x"])]) [Step.str "a", Step.int 0] = true ∧
    JSONValue (Json.obj [("a", Json.arr [Json.str "x"])]) [Step.str "a", Step.int 0] =
      Except.ok (valueAtSpec (Json.obj [("a", Json.arr [Json.str "x"])]) [Step.str "a", Step.int 0]) :=
  ⟨rfl, jsonValue_ok_on_safe_paths [Step.str "a", Step.int 0]
    (Json.obj [("a", Json.arr [Json.str "x"])]) rfl⟩

/-- C4: the claim states that a skip signal on a subdirectory prunes only
that subtree and the walk still descends into the remaining siblings.  In
the source the skip answer makes the directory loop return nil, so the
remaining siblings of the same parent are dropped as well: skipping
store/d1 yields no visited files at all even though store/d2 holds the
file x, whereas the same walk without the skip visits store/d2/x; a skip
on the root aborts the whole walk without error, as the claim states. -/
theorem walkFileStore_skip_drops_remaining_siblings :
    WalkFileStore cexDirCb okFileCb "store" cexTree = ([], none) ∧
    WalkFileStore contAllCb okFileCb "store" cexTree = (["store/d2/x"], none) ∧
    WalkFileStore (fun _ => DirSig.skip) okFileCb "store" cexTree = ([], none) :=
  ⟨rfl, rfl, rfl⟩

/-- C9 counterexample: the claim states that each pipeline returns a
non-nil error exactly when its recorded error count is nonzero; a run of
pullFiles whose store listing fails returns that error while the error
counter is still zero. -/
theorem pullFiles_enumeration_error_with_zero_count :
    pullFilesRun (Except.error "remote listing failed") =
      (Except.error "remote listing failed", 0) ∧
    (Except.error "remote listing failed" : Except String Unit) ≠ Except.ok () :=
  ⟨rfl, by simp⟩

/-- C9 amended: once a pipeline reaches its dispatch loop, that is when
item enumeration succeeded, each of the four pipelines returns a non-nil
error if and only if the recorded error count is nonzero; an enumeration
failure returns a non-nil error with a zero count. -/
theorem pipelines_error_iff_nonzero_count :
    ∀ work : List ItemOutcome,
      ((pullFilesRun (Except.ok work)).1 ≠ Except.ok () ↔ (pullFilesRun (Except.ok work)).2 ≠ 0) ∧
      ((pullObjectsRun (Except.ok work)).1 ≠ Except.ok () ↔ (pullObjectsRun (Except.ok work)).2 ≠ 0) ∧
      ((pushFilesRun (Except.ok work)).1 ≠ Except.ok () ↔ (pushFilesRun (Except.ok work)).2 ≠ 0) ∧
      ((pushObjectsRun (Except.ok work)).1 ≠ Except.ok () ↔ (pushObjectsRun (Except.ok work)).2 ≠ 0) := by
  intro work
  refine ⟨?_, ?_, ?_, ?_⟩ <;>
    · simp only [pullFilesRun, pullObjectsRun, pushFilesRun, pushObjectsRun]
      by_cases h : errorTally work > 0 <;> simp [h] <;> omega

/-- C9 witness for the amended statement: with one failed item the
pipeline result is an error, and with one successful item the count is
zero. -/
theorem pipelines_error_iff_nonzero_count_witness :
    (pullFilesRun (Except.ok [ItemOutcome.failure])).1 ≠ Except.ok () ∧
    (pushObjectsRun (Except.ok [ItemOutcome.success])).2 = 0 :=
  ⟨(pipelines_error_iff_nonzero_count [ItemOutcome.failure]).1.mpr (by decide), rfl⟩

/-- C10: the classification of pushFile is total exactly on response
bodies carrying a string at the result key: with such a body it returns a
result, and with any other body the unchecked type assertion panics
rather than classifying the item or returning an item error. -/
theorem pushFile_classification_requires_string_result :
    (∀ res s, JSONValue res [Step.str "result"] = Except.ok (Json.str s) →
      ∃ r, pushFileClassify res = Except.ok r) ∧
    (∀ res, (∀ s, JSONValue res [Step.str "result"] ≠ Except.ok (Json.str s)) →
      pushFileClassify res = Except.error GoPanic.panic) := by
  have htotal : ∀ res, ∃ j, JSONValue res [Step.str "result"] = Except.ok j := by
    intro res
    cases res <;> exact ⟨_, rfl⟩
  constructor
  · intro res s h
    simp only [pushFileClassify, h]
    by_cases h1 : containsSub s "File was updated" = true
    · exact ⟨_, by rw [if_pos h1]⟩
    · by_cases h2 : containsSub s "File was created" = true
      · exact ⟨_, by rw [if_neg h1, if_pos h2]⟩
      · exact ⟨_, by rw [if_neg h1, if_neg h2]⟩
  · intro res h
    obtain ⟨j, hj⟩ := htotal res
    simp only [pushFileClassify, hj]
    cases j with
    | str s2 => exact absurd hj (h s2)
    | _ => rfl

/-- C10 witness: a body with a created message classifies, and a body
with no result field panics. -/
theorem pushFile_classification_requires_string_result_witness :
    (∃ r, pushFileClassify (Json.obj [("result", Json.str "File was created")]) = Except.ok r) ∧
    pushFileClassify (Json.obj []) = Except.error GoPanic.panic :=
  ⟨pushFile_classification_requires_string_result.1 _ "File was created" rfl,
   pushFile_classification_requires_string_result.2 _
     (fun _ h => Json.noConfusion (Except.ok.inj h))⟩

/-- Helper: reduction of RefQName on a two-entry map with string href
and value, exposing the segment tests. -/
theorem refQName_red (m : List (String × Json)) (hl : m.length = 2) (hs vs : String)
    (hh : lookupKey m "href" = some (Json.str hs))
    (hv : lookupKey m "value" = some (Json.str vs)) :
    RefQName m =
      (if (splitOnSlash hs.data).length ≠ 6 then Except.ok none
       else if (splitOnSlash hs.data).getD 5 [] ≠ vs.data then Except.ok none
       else Except.ok (some (String.mk ((splitOnSlash hs.data).getD 4 []) ++ "/" ++ vs))) := by
  unfold RefQName
  rw [if_neg (by simp [hl]), hh, hv]

/-- Helper: a two-entry candidate block with a non-string href or value
panics in the type assertions of RefQName. -/
theorem refQName_nonstr (m : List (String × Json)) (hl : m.length = 2) (hv vv : Json)
    (hh : lookupKey m "href" = some hv) (hv2 : lookupKey m "value" = some vv)
    (hns : (∀ s, hv ≠ Json.str s) ∨ (∀ s, vv ≠ Json.str s)) :
    RefQName m = Except.error GoPanic.panic := by
  unfold RefQName
  rw [if_neg (by simp [hl]), hh, hv2]
  rcases hns with h1 | h2
  · cases hv with
    | str s => exact absurd rfl (h1 s)
    | null | bool b | num n | arr l | obj l => rfl
  · cases hv with
    | str s =>
      cases vv with
      | str s2 => exact absurd rfl (h2 s2)
      | null | bool b | num n | arr l | obj l => rfl
    | null | bool b | num n | arr l | obj l => rfl

/-- Helper: on a map whose candidate-reference shape carries strings at
href and value, RefQName cannot panic. -/
theorem refQNameOkAux : ∀ o, refTypesOKMap o = true → ∃ r, RefQName o = Except.ok r := by
  intro o h
  unfold refTypesOKMap at h
  by_cases hl : o.length = 2
  · rw [if_pos hl] at h
    cases hh : lookupKey o "href" with
    | none => exact ⟨none, by unfold RefQName; rw [if_neg (by simp [hl]), hh]⟩
    | some hv =>
      cases hv2 : lookupKey o "value" with
      | none => exact ⟨none, by unfold RefQName; rw [if_neg (by simp [hl]), hh, hv2]⟩
      | some vv =>
        rw [hh, hv2] at h
        cases hv with
        | str hs =>
          cases vv with
          | str vs =>
            rw [refQName_red o hl hs vs hh hv2]
            by_cases hsix : (splitOnSlash hs.data).length = 6
            · by_cases hseg : (splitOnSlash hs.data).getD 5 [] = vs.data
              · exact ⟨_, by rw [if_neg (fun hc => hc hsix), if_neg (fun hc => hc hseg)]⟩
              · exact ⟨none, by rw [if_neg (fun hc => hc hsix), if_pos hseg]⟩
            · exact ⟨none, by rw [if_pos hsix]⟩
          | null | bool b | num n | arr l | obj l => simp at h
        | null | bool b | num n | arr l | obj l => simp at h
  · exact ⟨none, by unfold RefQName; rw [if_pos (by simp [hl])]⟩

mutual

/-- Helper: Depend is panic-free on bodies whose reference candidates are
well typed. -/
theorem dependOkAux : ∀ m, refTypesOKEntries m = true → ∃ l, Depend m = Except.ok l
  | [], _ => ⟨[], rfl⟩
  | (k, v) :: rest, h => by
    simp only [refTypesOKEntries, Bool.and_eq_true] at h
    obtain ⟨d, hd⟩ := dependValueOkAux v h.1
    obtain ⟨ds, hds⟩ := dependOkAux rest h.2
    exact ⟨d ++ ds, by rw [Depend, hd, hds]⟩
termination_by m _ => sizeOf m

/-- Helper: value form of dependOkAux. -/
theorem dependValueOkAux : ∀ v, refTypesOKVal v = true → ∃ l, dependValue v = Except.ok l
  | .null, _ => ⟨[], rfl⟩
  | .bool b, _ => ⟨[], rfl⟩
  | .num n, _ => ⟨[], rfl⟩
  | .str s, _ => ⟨[], rfl⟩
  | .arr a, h => by
    rw [refTypesOKVal] at h
    obtain ⟨l, hl⟩ := dependArrOkAux a h
    exact ⟨l, by rw [dependValue]; exact hl⟩
  | .obj o, h => by
    simp only [refTypesOKVal, Bool.and_eq_true] at h
    obtain ⟨r, hr⟩ := refQNameOkAux o h.1
    cases r with
    | some qn => exact ⟨[qn], by rw [dependValue, hr]⟩
    | none =>
      obtain ⟨l, hl⟩ := dependOkAux o h.2
      exact ⟨l, by rw [dependValue, hr]; exact hl⟩
termination_by v _ => sizeOf v

/-- Helper: slice form of dependOkAux. -/
theorem dependArrOkAux : ∀ a, refTypesOKArr a = true → ∃ l, dependArr a = Except.ok l
  | [], _ => ⟨[], rfl⟩
  | Json.obj o :: rest, h => by
    have h2 : ((refTypesOKMap o && refTypesOKEntries o) && refTypesOKArr rest) = true := h
    rw [Bool.and_eq_true, Bool.and_eq_true] at h2
    obtain ⟨ds, hds⟩ := dependArrOkAux rest h2.2
    obtain ⟨r, hr⟩ := refQNameOkAux o h2.1.1
    cases r with
    | some qn => exact ⟨[qn] ++ ds, by rw [dependArr, hr, hds]⟩
    | none =>
      obtain ⟨l, hl⟩ := dependOkAux o h2.1.2
      exact ⟨l ++ ds, by rw [dependArr, hr, hl, hds]⟩
  | Json.null :: rest, h => dependArrOkAux rest h
  | Json.bool b :: rest, h => dependArrOkAux rest h
  | Json.num n :: rest, h => dependArrOkAux rest h
  | Json.str s2 :: rest, h => dependArrOkAux rest h
  | Json.arr l :: rest, h => dependArrOkAux rest h
termination_by a _ => sizeOf a

end

/-- C5 counterexample: the claim states that any deviation of a candidate
reference block from the well-formed shape, including a non-string href,
is a soft error that is logged and emits nothing, never a raised failure;
a two-entry block whose href is the number five panics in the type
assertion of RefQName instead. -/
theorem depend_panics_on_nonstring_href :
    Depend [("x", Json.obj [("href", Json.num 5), ("value", Json.str "a")])] =
      Except.error GoPanic.panic := rfl

/-- C5 amended: dependency extraction returns a list for every body in
which each two-entry mapping holding both keys href and value carries
strings at those keys; other deviations, such as a wrong segment count or
a mismatched href and value pair, stay soft and emit nothing, but a
non-string href or value in such a block raises a panic. -/
theorem depend_total_on_string_refs :
    ∀ m, refTypesOKEntries m = true → ∃ l, Depend m = Except.ok l :=
  fun m h => dependOkAux m h

/-- C5 witness: a concrete body with a matching reference, a mismatched
reference inside a list, and a scalar. -/
theorem depend_total_on_string_refs_witness :
    refTypesOKEntries refsOKBody = true ∧ ∃ l, Depend refsOKBody = Except.ok l :=
  ⟨rfl, depend_total_on_string_refs refsOKBody rfl⟩

/-- C8: RefQName emits a dependency exactly when the mapping has exactly
two entries with keys href and value, both strings, splitting href on
slashes yields exactly six segments, and the sixth equals value, in which
case it emits segment five, a slash, and value; an href of five or seven
segments emits nothing; and a mapping of three entries is treated by
Depend as a regular mapping and descended into. -/
theorem refQName_emission_characterization :
    (∀ m qn, RefQName m = Except.ok (some qn) ↔
      (m.length = 2 ∧ ∃ hs vs, lookupKey m "href" = some (Json.str hs) ∧
        lookupKey m "value" = some (Json.str vs) ∧
        (splitOnSlash hs.data).length = 6 ∧
        (splitOnSlash hs.data).getD 5 [] = vs.data ∧
        qn = String.mk ((splitOnSlash hs.data).getD 4 []) ++ "/" ++ vs)) ∧
    (∀ m hs vs, m.length = 2 → lookupKey m "href" = some (Json.str hs) →
      lookupKey m "value" = some (Json.str vs) →
      ((splitOnSlash hs.data).length = 5 ∨ (splitOnSlash hs.data).length = 7) →
      RefQName m = Except.ok none) ∧
    (∀ o, o.length = 3 → dependValue (Json.obj o) = Depend o) := by
  refine ⟨?_, ?_, ?_⟩
  · intro m qn
    constructor
    · intro h
      by_cases hl : m.length = 2
      · refine ⟨hl, ?_⟩
        cases hh : lookupKey m "href" with
        | none =>
          have hred : RefQName m = Except.ok none := by
            unfold RefQName
            rw [if_neg (by simp [hl]), hh]
          rw [hred] at h
          exact absurd (Except.ok.inj h) (by simp)
        | some hv =>
          cases hv2 : lookupKey m "value" with
          | none =>
            have hred : RefQName m = Except.ok none := by
              unfold RefQName
              rw [if_neg (by simp [hl]), hh, hv2]
            rw [hred] at h
            exact absurd (Except.ok.inj h) (by simp)
          | some vv =>
            cases hv with
            | str hs =>
              cases vv with
              | str vs =>
                refine ⟨hs, vs, rfl, rfl, ?_⟩
                rw [refQName_red m hl hs vs hh hv2] at h
                by_cases hsix : (splitOnSlash hs.data).length = 6
                · by_cases hseg : (splitOnSlash hs.data).getD 5 [] = vs.data
                  · rw [if_neg (fun hc => hc hsix), if_neg (fun hc => hc hseg)] at h
                    exact ⟨hsix, hseg, (Option.some.inj (Except.ok.inj h)).symm⟩
                  · rw [if_neg (fun hc => hc hsix), if_pos hseg] at h
                    exact absurd (Except.ok.inj h) (by simp)
                · rw [if_pos hsix] at h
                  exact absurd (Except.ok.inj h) (by simp)
              | null | bool b | num n | arr l | obj l =>
                rw [refQName_nonstr m hl _ _ hh hv2
                  (Or.inr (by intro s hcon; exact Json.noConfusion hcon))] at h
                exact absurd h (by simp)
            | null | bool b | num n | arr l | obj l =>
              rw [refQName_nonstr m hl _ _ hh hv2
                (Or.inl (by intro s hcon; exact Json.noConfusion hcon))] at h
              exact absurd h (by simp)
      · have hred : RefQName m = Except.ok none := by
          unfold RefQName
          rw [if_pos (by simp [hl])]
        rw [hred] at h
        exact absurd (Except.ok.inj h) (by simp)
    · rintro ⟨hl, hs, vs, hh, hv, hsix, hseg, hqn⟩
      rw [refQName_red m hl hs vs hh hv, if_neg (fun hc => hc hsix), if_neg (fun hc => hc hseg), hqn]
  · intro m hs vs hl hh hv hlen
    rw [refQName_red m hl hs vs hh hv, if_pos]
    rcases hlen with h5 | h5 <;> omega
  · intro o h3
    have hrq : RefQName o = Except.ok none := by
      unfold RefQName
      rw [if_pos (by omega)]
    rw [dependValue, hrq]

/-- C8 witness: a six-segment matching reference emits, a five-segment
href does not, and a three-entry mapping is descended. -/
theorem refQName_emission_characterization_witness :
    RefQName [("href", Json.str "/mgmt/config/default/XMLFW/svc"), ("value", Json.str "svc")] =
      Except.ok (some "XMLFW/svc") ∧
    RefQName [("href", Json.str "/mgmt/config/default/XMLFW"), ("value", Json.str "XMLFW")] =
      Except.ok none ∧
    dependValue (Json.obj [("href", Json.str "h"), ("value", Json.str "v"), ("z", Json.null)]) =
      Depend [("href", Json.str "h"), ("value", Json.str "v"), ("z", Json.null)] :=
  ⟨(refQName_emission_characterization.1 _ _).mpr
      ⟨rfl, "/mgmt/config/default/XMLFW/svc", "svc", rfl, rfl, rfl, rfl, by decide⟩,
   refQName_emission_characterization.2.1 _ "/mgmt/config/default/XMLFW" "XMLFW" rfl rfl rfl
      (Or.inl rfl),
   refQName_emission_characterization.2.2 _ rfl⟩

/-- Helper: a leading match is in particular a substring occurrence. -/
theorem infixOfPrefixHead {l1 l2 : List Char} (h : l1 <+: l2) : l1 <:+: l2 := by
  obtain ⟨t, ht⟩ := h
  exact ⟨[], t, by simpa using ht⟩

/-- Helper: a substring occurrence in the tail is one in the whole. -/
theorem infixOfTail {l1 l2 : List Char} (a : Char) (h : l1 <:+: l2) : l1 <:+: a :: l2 := by
  obtain ⟨u, t, hut⟩ := h
  exact ⟨a :: u, t, by simp [hut]⟩

/-- Helper: a string free of the pattern is a fixed point of the
first-occurrence replacement. -/
theorem replaceFirstL_eq_self (pat rep : List Char) :
    ∀ s, ¬ pat <:+: s → replaceFirstL pat rep s = s := by
  intro s
  induction s with
  | nil => intro _; rfl
  | cons c cs ih =>
    intro h
    rw [replaceFirstL, if_neg (fun hp => h (infixOfPrefixHead hp)),
      ih (fun hinf => h (infixOfTail c hinf))]

mutual

/-- Helper: on bodies whose href rewrites clear the pattern, one
updateLinks pass succeeds and its output is a fixed point. -/
theorem updateLinksFixAux : ∀ d m, updOKEntries d m = true →
    ∃ m2, updateLinks d m = Except.ok m2 ∧ updateLinks d m2 = Except.ok m2
  | d, [], _ => ⟨[], rfl, rfl⟩
  | d, (k, v) :: rest, h => by
    have h2 : ((if k = "_links" then true
        else if k = "href" then updOKHref d v
        else updOKVal d v) && updOKEntries d rest) = true := h
    rw [Bool.and_eq_true] at h2
    obtain ⟨r, hr1, hr2⟩ := updateLinksFixAux d rest h2.2
    by_cases hk1 : k = "_links"
    · exact ⟨r, by rw [updateLinks, if_pos hk1]; exact hr1, hr2⟩
    · by_cases hk2 : k = "href"
      · subst hk2
        have h3 : updOKHref d v = true := by
          have h4 := h2.1
          rwa [if_neg hk1, if_pos rfl] at h4
        cases v with
        | str s =>
          have hno : ¬ linkPat d <:+: replaceFirstL (linkPat d) linkSubst s.data :=
            of_decide_eq_true (by rwa [updOKHref] at h3)
          have hS : replaceFirstL (linkPat d) linkSubst
                (String.mk (replaceFirstL (linkPat d) linkSubst s.data)).data =
              (String.mk (replaceFirstL (linkPat d) linkSubst s.data)).data :=
            replaceFirstL_eq_self _ _ _ hno
          refine ⟨("href",
              Json.str (String.mk (replaceFirstL (linkPat d) linkSubst s.data))) :: r, ?_, ?_⟩
          · simp [updateLinks, hrefAssertString, hr1]
          · simp [updateLinks, hrefAssertString, hr2, hS]
        | null => exact absurd h3 (by simp [updOKHref])
        | bool b => exact absurd h3 (by simp [updOKHref])
        | num n => exact absurd h3 (by simp [updOKHref])
        | arr l => exact absurd h3 (by simp [updOKHref])
        | obj o => exact absurd h3 (by simp [updOKHref])
      · have h3 : updOKVal d v = true := by
          have h4 := h2.1
          rwa [if_neg hk1, if_neg hk2] at h4
        obtain ⟨v2, hv1, hv2⟩ := updateLinksValFixAux d v h3
        refine ⟨(k, v2) :: r, ?_, ?_⟩
        · rw [updateLinks, if_neg hk1, if_neg hk2, hv1, hr1]
        · rw [updateLinks, if_neg hk1, if_neg hk2, hv2, hr2]
termination_by d m _ => sizeOf m

/-- Helper: value form of updateLinksFixAux. -/
theorem updateLinksValFixAux : ∀ d v, updOKVal d v = true →
    ∃ v2, updateLinksVal d v = Except.ok v2 ∧ updateLinksVal d v2 = Except.ok v2
  | d, Json.obj o, h => by
    obtain ⟨o2, h1, h2⟩ := updateLinksFixAux d o h
    exact ⟨Json.obj o2, by rw [updateLinksVal, h1], by rw [updateLinksVal, h2]⟩
  | d, Json.arr a, h => by
    obtain ⟨a2, h1, h2⟩ := updateLinksArrFixAux d a h
    exact ⟨Json.arr a2, by rw [updateLinksVal, h1], by rw [updateLinksVal, h2]⟩
  | d, Json.null, _ => ⟨Json.null, rfl, rfl⟩
  | d, Json.bool b, _ => ⟨Json.bool b, rfl, rfl⟩
  | d, Json.num n, _ => ⟨Json.num n, rfl, rfl⟩
  | d, Json.str s, _ => ⟨Json.str s, rfl, rfl⟩
termination_by d v _ => sizeOf v

/-- Helper: slice form of updateLinksFixAux. -/
theorem updateLinksArrFixAux : ∀ d a, updOKArr d a = true →
    ∃ a2, updateLinksArr d a = Except.ok a2 ∧ updateLinksArr d a2 = Except.ok a2
  | d, [], _ => ⟨[], rfl, rfl⟩
  | d, Json.obj o :: rest, h => by
    have h2 : (updOKEntries d o && updOKArr d rest) = true := h
    rw [Bool.and_eq_true] at h2
    obtain ⟨o2, ho1, ho2⟩ := updateLinksFixAux d o h2.1
    obtain ⟨r2, hr1, hr2⟩ := updateLinksArrFixAux d rest h2.2
    exact ⟨Json.obj o2 :: r2,
      by rw [updateLinksArr, ho1, hr1],
      by rw [updateLinksArr, ho2, hr2]⟩
  | d, Json.null :: rest, h => by
    obtain ⟨r2, hr1, hr2⟩ := updateLinksArrFixAux d rest h
    exact ⟨Json.null :: r2, by simp only [updateLinksArr, hr1], by simp only [updateLinksArr, hr2]⟩
  | d, Json.bool b :: rest, h => by
    obtain ⟨r2, hr1, hr2⟩ := updateLinksArrFixAux d rest h
    exact ⟨Json.bool b :: r2,
      by simp only [updateLinksArr, hr1], by simp only [updateLinksArr, hr2]⟩
  | d, Json.num n :: rest, h => by
    obtain ⟨r2, hr1, hr2⟩ := updateLinksArrFixAux d rest h
    exact ⟨Json.num n :: r2,
      by simp only [updateLinksArr, hr1], by simp only [updateLinksArr, hr2]⟩
  | d, Json.str s :: rest, h => by
    obtain ⟨r2, hr1, hr2⟩ := updateLinksArrFixAux d rest h
    exact ⟨Json.str s :: r2,
      by simp only [updateLinksArr, hr1], by simp only [updateLinksArr, hr2]⟩
  | d, Json.arr l :: rest, h => by
    obtain ⟨r2, hr1, hr2⟩ := updateLinksArrFixAux d rest h
    exact ⟨Json.arr l :: r2,
      by simp only [updateLinksArr, hr1], by simp only [updateLinksArr, hr2]⟩
termination_by d a _ => sizeOf a

end

/-- C3 counterexample: the claim states that updateLinks is idempotent
for every body and domain.  The pass replaces only the first occurrence
of the pattern per href, so an href holding the pattern twice is
rewritten again by a second pass: under domain d the shown body maps to a
first result and then to a different second result. -/
theorem updateLinks_not_idempotent_on_double_occurrence :
    updateLinks "d" [("href", Json.str cexHref0)] = Except.ok [("href", Json.str cexHref1)] ∧
    updateLinks "d" [("href", Json.str cexHref1)] = Except.ok [("href", Json.str cexHref2)] ∧
    cexHref1 ≠ cexHref2 :=
  ⟨rfl, rfl, by decide⟩

/-- C3 amended: updateLinks removes the links entries and rewrites the
first occurrence of the domain pattern in each href; applying it twice
equals applying it once for every body whose href string values, after
their single rewrite, hold no further occurrence of the pattern.  In
general a second application rewrites one more occurrence per href. -/
theorem updateLinks_idempotent_when_rewrite_clears_pattern :
    ∀ domain m, updOKEntries domain m = true →
      ∃ m2, updateLinks domain m = Except.ok m2 ∧ updateLinks domain m2 = Except.ok m2 :=
  fun d m h => updateLinksFixAux d m h

/-- C3 witness: a body with one rewritable href, a links block, and a
nested mapping. -/
theorem updateLinks_idempotent_when_rewrite_clears_pattern_witness :
    updOKEntries "d" linkFixBody = true ∧
    ∃ m2, updateLinks "d" linkFixBody = Except.ok m2 ∧ updateLinks "d" m2 = Except.ok m2 :=
  ⟨by decide, updateLinks_idempotent_when_rewrite_clears_pattern "d" linkFixBody (by decide)⟩

/-- Helper: fuel cost of a cons cell of the working map. -/
theorem depCost_cons (dep : String → Option (List String)) (q : String) (m : List String) :
    depCost dep (q :: m) = (1 + ((dep q).getD []).length) + depCost dep m := by
  simp [depCost]

/-- Helper: the fuel cost is monotone under sublists. -/
theorem depCost_sublist_le (dep : String → Option (List String)) {m1 m2 : List String}
    (h : m1.Sublist m2) : depCost dep m1 ≤ depCost dep m2 := by
  induction h with
  | slnil => exact le_refl _
  | cons a h ih => rw [depCost_cons]; omega
  | cons₂ a h ih => rw [depCost_cons, depCost_cons]; omega

/-- Helper: the fuel cost is invariant under permutation. -/
theorem depCost_perm (dep : String → Option (List String)) {m1 m2 : List String}
    (h : m1.Perm m2) : depCost dep m1 = depCost dep m2 :=
  (h.map _).sum_eq

/-- Helper: state invariant of the visitor of ObjectInfoSlice.Sort.  With
enough fuel the final map is a sublist of the initial one, the initial
map is a permutation of the final map together with the emitted segment,
and every listed qname is absent from the final map. -/
theorem visitD_state (dep : String → Option (List String)) :
    ∀ fuel ds m, m.Nodup → ds.length + depCost dep m ≤ fuel →
      (visitD dep fuel ds m).1.Sublist m ∧
      m.Perm ((visitD dep fuel ds m).1 ++ (visitD dep fuel ds m).2) ∧
      (∀ x ∈ ds, x ∉ (visitD dep fuel ds m).1) := by
  intro fuel
  induction fuel with
  | zero =>
    intro ds m hnd hle
    have hds : ds = [] := by
      cases ds with
      | nil => rfl
      | cons d rest =>
        exfalso
        have hlc := List.length_cons d rest
        omega
    subst hds
    simp [visitD]
  | succ fuel ih =>
    intro ds m hnd hle
    cases ds with
    | nil => simp [visitD]
    | cons d rest =>
      have hlc := List.length_cons d rest
      by_cases hdm : d ∈ m
      · have hperm0 : m.Perm (d :: m.erase d) := List.perm_cons_erase hdm
        have hcost : depCost dep m = (1 + ((dep d).getD []).length) + depCost dep (m.erase d) := by
          rw [depCost_perm dep hperm0, depCost_cons]
        have hndE : (m.erase d).Nodup := hnd.erase d
        cases hdep : dep d with
        | some dds =>
          have hdl : ((dep d).getD []).length = dds.length := by rw [hdep]; rfl
          have hb1 : dds.length + depCost dep (m.erase d) ≤ fuel := by omega
          have IH1 := ih dds (m.erase d) hndE hb1
          rcases hv1 : visitD dep fuel dds (m.erase d) with ⟨m2, o1⟩
          rw [hv1] at IH1
          have hm2sub : m2.Sublist (m.erase d) := IH1.1
          have hm2nd : m2.Nodup := List.Nodup.sublist hm2sub hndE
          have hcost2 : depCost dep m2 ≤ depCost dep (m.erase d) := depCost_sublist_le dep hm2sub
          have hb2 : rest.length + depCost dep m2 ≤ fuel := by omega
          have IH2 := ih rest m2 hm2nd hb2
          rcases hv2 : visitD dep fuel rest m2 with ⟨m3, o2⟩
          rw [hv2] at IH2
          have hres : visitD dep (fuel + 1) (d :: rest) m = (m3, (o1 ++ [d]) ++ o2) := by
            rw [visitD, if_pos hdm, hdep]
            dsimp only
            rw [hv1]
            dsimp only
            rw [hv2]
          rw [hres]
          dsimp only
          refine ⟨IH2.1.trans (hm2sub.trans (List.erase_sublist d m)), ?_, ?_⟩
          · have p1 : m.Perm (d :: (m2 ++ o1)) := hperm0.trans (IH1.2.1.cons d)
            have p2 : (m2 ++ o1).Perm ((m3 ++ o2) ++ o1) := IH2.2.1.append_right o1
            refine (p1.trans (p2.cons d)).trans ?_
            refine List.perm_iff_count.mpr (fun a => ?_)
            by_cases had : a = d <;>
              simp [List.count_append, List.count_cons, had] <;> omega
          · intro x hx
            rcases List.mem_cons.mp hx with hxd | hxr
            · subst hxd
              intro hmem3
              have hmemE : x ∈ m.erase x :=
                (hm2sub.trans (List.Sublist.refl _)).subset (IH2.1.subset hmem3)
              exact absurd rfl ((hnd.mem_erase_iff.mp hmemE).1)
            · exact IH2.2.2 x hxr
        | none =>
          have hdl : ((dep d).getD []).length = 0 := by rw [hdep]; rfl
          have hb2 : rest.length + depCost dep (m.erase d) ≤ fuel := by omega
          have IH2 := ih rest (m.erase d) hndE hb2
          rcases hv2 : visitD dep fuel rest (m.erase d) with ⟨m3, o2⟩
          rw [hv2] at IH2
          have hres : visitD dep (fuel + 1) (d :: rest) m = (m3, [d] ++ o2) := by
            rw [visitD, if_pos hdm, hdep]
            dsimp only
            rw [hv2]
          rw [hres]
          dsimp only
          refine ⟨IH2.1.trans (List.erase_sublist d m), ?_, ?_⟩
          · refine (hperm0.trans (IH2.2.1.cons d)).trans ?_
            refine List.perm_iff_count.mpr (fun a => ?_)
            by_cases had : a = d
            all_goals simp [List.count_append, List.count_cons, had]
            all_goals omega
          · intro x hx
            rcases List.mem_cons.mp hx with hxd | hxr
            · subst hxd
              intro hmem3
              have hmemE : x ∈ m.erase x := IH2.1.subset hmem3
              exact absurd rfl ((hnd.mem_erase_iff.mp hmemE).1)
            · exact IH2.2.2 x hxr
      · have hb : rest.length + depCost dep m ≤ fuel := by omega
        have IH := ih rest m hnd hb
        have hres : visitD dep (fuel + 1) (d :: rest) m = visitD dep fuel rest m := by
          rw [visitD, if_neg hdm]
        rw [hres]
        refine ⟨IH.1, IH.2.1, ?_⟩
        intro x hx
        rcases List.mem_cons.mp hx with hxd | hxr
        · subst hxd
          exact fun hmem => hdm (IH.1.subset hmem)
        · exact IH.2.2 x hxr

/-- Helper: ordering invariant of the visitor of ObjectInfoSlice.Sort.
Under a rank function that decreases along every dependency edge inside
the ambient set S, every emitted qname has rank bounded by some listed
and present qname, and every dependency of an emitted qname that lies in
S has been removed from the map by the end and, if it was present at the
start, was emitted earlier in the segment. -/
theorem visitD_order (dep : String → Option (List String)) (S : List String)
    (rk : String → Nat)
    (hacy : ∀ q ∈ S, ∀ x ∈ (dep q).getD [], x ∈ S → rk x < rk q) :
    ∀ fuel ds m, m.Nodup → (∀ q ∈ m, q ∈ S) → ds.length + depCost dep m ≤ fuel →
      (∀ O ∈ (visitD dep fuel ds m).2, ∃ x, x ∈ ds ∧ x ∈ m ∧ rk O ≤ rk x) ∧
      (∀ O ∈ (visitD dep fuel ds m).2, ∀ D, D ∈ (dep O).getD [] → D ∈ S →
        D ∉ (visitD dep fuel ds m).1 ∧
        (D ∈ m → List.Sublist [D, O] (visitD dep fuel ds m).2)) := by
  intro fuel
  induction fuel with
  | zero =>
    intro ds m hnd hmS hle
    have hds : ds = [] := by
      cases ds with
      | nil => rfl
      | cons d rest =>
        exfalso
        have hlc := List.length_cons d rest
        omega
    subst hds
    simp [visitD]
  | succ fuel ih =>
    intro ds m hnd hmS hle
    cases ds with
    | nil => simp [visitD]
    | cons d rest =>
      have hlc := List.length_cons d rest
      by_cases hdm : d ∈ m
      · have hperm0 : m.Perm (d :: m.erase d) := List.perm_cons_erase hdm
        have hcost : depCost dep m = (1 + ((dep d).getD []).length) + depCost dep (m.erase d) := by
          rw [depCost_perm dep hperm0, depCost_cons]
        have hndE : (m.erase d).Nodup := hnd.erase d
        have hmSE : ∀ q ∈ m.erase d, q ∈ S :=
          fun q hq => hmS q ((List.erase_sublist d m).subset hq)
        have hdS : d ∈ S := hmS d hdm
        cases hdep : dep d with
        | some dds =>
          have hdl : ((dep d).getD []).length = dds.length := by rw [hdep]; rfl
          have hb1 : dds.length + depCost dep (m.erase d) ≤ fuel := by omega
          have A1 := visitD_state dep fuel dds (m.erase d) hndE hb1
          have B1 := ih dds (m.erase d) hndE hmSE hb1
          rcases hv1 : visitD dep fuel dds (m.erase d) with ⟨m2, o1⟩
          rw [hv1] at A1 B1
          have hm2sub : m2.Sublist (m.erase d) := A1.1
          have hm2nd : m2.Nodup := List.Nodup.sublist hm2sub hndE
          have hm2S : ∀ q ∈ m2, q ∈ S := fun q hq => hmSE q (hm2sub.subset hq)
          have hcost2 : depCost dep m2 ≤ depCost dep (m.erase d) := depCost_sublist_le dep hm2sub
          have hb2 : rest.length + depCost dep m2 ≤ fuel := by omega
          have A2 := visitD_state dep fuel rest m2 hm2nd hb2
          have B2 := ih rest m2 hm2nd hm2S hb2
          rcases hv2 : visitD dep fuel rest m2 with ⟨m3, o2⟩
          rw [hv2] at A2 B2
          have hres : visitD dep (fuel + 1) (d :: rest) m = (m3, (o1 ++ [d]) ++ o2) := by
            rw [visitD, if_pos hdm, hdep]
            dsimp only
            rw [hv1]
            dsimp only
            rw [hv2]
          rw [hres]
          dsimp only
          have hranko1 : ∀ O ∈ o1, rk O < rk d := by
            intro O hO
            obtain ⟨x, hxds, hxm1, hrk⟩ := B1.1 O hO
            have hxS : x ∈ S := hmSE x hxm1
            have hxd : rk x < rk d := hacy d hdS x (by rw [hdep]; exact hxds) hxS
            omega
          have hmemo1 : ∀ O ∈ o1, O ∈ m.erase d := by
            intro O hO
            exact A1.2.1.symm.subset (List.mem_append.mpr (Or.inr hO))
          constructor
          · intro O hO
            rcases List.mem_append.mp hO with hO1 | hO2
            · rcases List.mem_append.mp hO1 with hOo1 | hOd
              · exact ⟨d, List.mem_cons_self d rest, hdm, le_of_lt (hranko1 O hOo1)⟩
              · have hOd2 : O = d := by simpa using hOd
                subst hOd2
                exact ⟨O, List.mem_cons_self _ _, hdm, le_refl _⟩
            · obtain ⟨x, hxrest, hxm2, hrk⟩ := B2.1 O hO2
              exact ⟨x, List.mem_cons_of_mem d hxrest,
                (List.erase_sublist d m).subset (hm2sub.subset hxm2), hrk⟩
          · intro O hO D hD hDS
            rcases List.mem_append.mp hO with hO1 | hO2
            · rcases List.mem_append.mp hO1 with hOo1 | hOd
              · obtain ⟨hDm2, hbef⟩ := B1.2 O hOo1 D hD hDS
                refine ⟨fun hmem => hDm2 (A2.1.subset hmem), ?_⟩
                intro hDm
                by_cases hDd : D = d
                · exfalso
                  have hOS : O ∈ S := hmSE O (hmemo1 O hOo1)
                  have h1 : rk d < rk O := by
                    subst hDd
                    exact hacy O hOS D hD hDS
                  have h2 : rk O < rk d := hranko1 O hOo1
                  omega
                · have hDm1 : D ∈ m.erase d := (List.mem_erase_of_ne hDd).mpr hDm
                  exact (hbef hDm1).trans
                    ((List.sublist_append_left o1 [d]).trans
                      (List.sublist_append_left (o1 ++ [d]) o2))
              · have hOd2 : O = d := by simpa using hOd
                subst hOd2
                have hDdds : D ∈ dds := by
                  have hx := hD
                  rw [hdep] at hx
                  exact hx
                refine ⟨fun hmem => A1.2.2 D hDdds (A2.1.subset hmem), ?_⟩
                intro hDm
                by_cases hDd : D = O
                · exfalso
                  have h1 : rk D < rk O := hacy O hdS D hD hDS
                  subst hDd
                  omega
                · have hDm1 : D ∈ m.erase O := (List.mem_erase_of_ne hDd).mpr hDm
                  have hDo1 : D ∈ o1 := by
                    rcases List.mem_append.mp (A1.2.1.subset hDm1) with hc | hc
                    · exact absurd hc (A1.2.2 D hDdds)
                    · exact hc
                  have hsub : List.Sublist ([D] ++ [O]) (o1 ++ [O]) :=
                    List.Sublist.append (List.singleton_sublist.mpr hDo1)
                      (List.Sublist.refl [O])
                  exact hsub.trans (List.sublist_append_left (o1 ++ [O]) o2)
            · obtain ⟨hDm3, hbef2⟩ := B2.2 O hO2 D hD hDS
              refine ⟨hDm3, ?_⟩
              intro hDm
              by_cases hDm2mem : D ∈ m2
              · exact (hbef2 hDm2mem).trans (List.sublist_append_right (o1 ++ [d]) o2)
              · have hDout1 : D ∈ o1 ++ [d] := by
                  by_cases hDd : D = d
                  · subst hDd
                    exact List.mem_append.mpr (Or.inr (List.mem_singleton.mpr rfl))
                  · have hDm1 : D ∈ m.erase d := (List.mem_erase_of_ne hDd).mpr hDm
                    rcases List.mem_append.mp (A1.2.1.subset hDm1) with hc | hc
                    · exact absurd hc hDm2mem
                    · exact List.mem_append.mpr (Or.inl hc)
                exact List.Sublist.append (List.singleton_sublist.mpr hDout1)
                  (List.singleton_sublist.mpr hO2)
        | none =>
          have hdl : ((dep d).getD []).length = 0 := by rw [hdep]; rfl
          have hb2 : rest.length + depCost dep (m.erase d) ≤ fuel := by omega
          have A2 := visitD_state dep fuel rest (m.erase d) hndE hb2
          have B2 := ih rest (m.erase d) hndE hmSE hb2
          rcases hv2 : visitD dep fuel rest (m.erase d) with ⟨m3, o2⟩
          rw [hv2] at A2 B2
          have hres : visitD dep (fuel + 1) (d :: rest) m = (m3, [d] ++ o2) := by
            rw [visitD, if_pos hdm, hdep]
            dsimp only
            rw [hv2]
          rw [hres]
          dsimp only
          constructor
          · intro O hO
            rcases List.mem_append.mp hO with hOd | hO2
            · have hOd2 : O = d := by simpa using hOd
              subst hOd2
              exact ⟨O, List.mem_cons_self _ _, hdm, le_refl _⟩
            · obtain ⟨x, hxrest, hxm1, hrk⟩ := B2.1 O hO2
              exact ⟨x, List.mem_cons_of_mem d hxrest,
                (List.erase_sublist d m).subset hxm1, hrk⟩
          · intro O hO D hD hDS
            rcases List.mem_append.mp hO with hOd | hO2
            · have hOd2 : O = d := by simpa using hOd
              subst hOd2
              exfalso
              rw [hdep] at hD
              simp at hD
            · obtain ⟨hDm3, hbef2⟩ := B2.2 O hO2 D hD hDS
              refine ⟨hDm3, ?_⟩
              intro hDm
              by_cases hDd : D = d
              · subst hDd
                exact List.Sublist.append
                  (List.singleton_sublist.mpr (List.mem_singleton.mpr rfl))
                  (List.singleton_sublist.mpr hO2)
              · have hDm1 : D ∈ m.erase d := (List.mem_erase_of_ne hDd).mpr hDm
                exact (hbef2 hDm1).trans (List.sublist_append_right [d] o2)
      · have hb : rest.length + depCost dep m ≤ fuel := by omega
        have hres : visitD dep (fuel + 1) (d :: rest) m = visitD dep fuel rest m := by
          rw [visitD, if_neg hdm]
        rw [hres]
        obtain ⟨L4, L5⟩ := ih rest m hnd hmS hb
        refine ⟨fun O hO => ?_, L5⟩
        obtain ⟨x, hx1, hx2, hx3⟩ := L4 O hO
        exact ⟨x, List.mem_cons_of_mem d hx1, hx2, hx3⟩

/-- C7: the dependency-ordered Sort emits every object of the input set
exactly once for every input whose qnames are distinct, including cyclic
dependency graphs and objects whose dependency enumeration fails, which
degrade to no dependencies while the object is still emitted: the output
is a permutation of the input. -/
theorem objectSort_permutation (dep : String → Option (List String)) (qnames : List String)
    (hnd : qnames.Nodup) : (ObjectInfoSliceSort dep qnames).Perm qnames := by
  have hlen : (sortStringsGo qnames).length = qnames.length := by
    unfold sortStringsGo
    exact List.length_insertionSort _ qnames
  have hA := visitD_state dep (qnames.length + depCost dep qnames) (sortStringsGo qnames)
      qnames hnd (by omega)
  unfold ObjectInfoSliceSort
  rcases hv : visitD dep (qnames.length + depCost dep qnames) (sortStringsGo qnames) qnames
    with ⟨mf, out⟩
  rw [hv] at hA
  dsimp only
  have hmf : mf = [] := by
    rw [List.eq_nil_iff_forall_not_mem]
    intro x hx
    have hxq : x ∈ qnames := hA.1.subset hx
    have hxs : x ∈ sortStringsGo qnames := by
      unfold sortStringsGo
      exact (List.perm_insertionSort _ qnames).symm.subset hxq
    exact hA.2.2 x hxs hx
  subst hmf
  exact (hA.2.1.trans (by simp)).symm

/-- C7 witness: a two-object cycle together with an object whose
dependency enumeration fails is emitted exactly once each. -/
theorem objectSort_permutation_witness :
    (["a", "b", "e"] : List String).Nodup ∧
    (ObjectInfoSliceSort depW ["a", "b", "e"]).Perm ["a", "b", "e"] :=
  ⟨by decide, objectSort_permutation depW ["a", "b", "e"] (by decide)⟩

/-- C6 counterexample: the claim states that after the dependency sort
every dependency of an emitted object that is itself in the set appears
at a smaller output index.  On the two-object cycle a and b the output is
b then a, yet a is a dependency of b and lies in the set, so it does not
appear before b. -/
theorem objectSort_cycle_violates_dependency_order :
    ObjectInfoSliceSort depCyc ["a", "b"] = ["b", "a"] ∧
    "a" ∈ (depCyc "b").getD [] ∧
    ("a" : String) ∈ ["a", "b"] ∧
    "b" ∈ ObjectInfoSliceSort depCyc ["a", "b"] ∧
    ¬ List.Sublist ["a", "b"] (ObjectInfoSliceSort depCyc ["a", "b"]) :=
  ⟨by decide, by decide, by decide, by decide, by decide⟩

/-- C6 amended: after the dependency sort, for every emitted object O and
every dependency D of O that is itself in the set, D appears before O in
the output, provided the dependency relation restricted to the set is
acyclic, witnessed by a rank function that decreases along every
dependency edge inside the set; a dependency cycle makes an object
precede one of its dependencies. -/
theorem objectSort_dependency_order (dep : String → Option (List String))
    (qnames : List String) (rk : String → Nat) (hnd : qnames.Nodup)
    (hacy : ∀ O ∈ qnames, ∀ D ∈ (dep O).getD [], D ∈ qnames → rk D < rk O) :
    ∀ O ∈ ObjectInfoSliceSort dep qnames, ∀ D, D ∈ (dep O).getD [] → D ∈ qnames →
      List.Sublist [D, O] (ObjectInfoSliceSort dep qnames) := by
  intro O hO D hD hDq
  have hlen : (sortStringsGo qnames).length = qnames.length := by
    unfold sortStringsGo
    exact List.length_insertionSort _ qnames
  have hB := visitD_order dep qnames rk hacy (qnames.length + depCost dep qnames)
      (sortStringsGo qnames) qnames hnd (fun q hq => hq) (by omega)
  unfold ObjectInfoSliceSort at hO ⊢
  rcases hv : visitD dep (qnames.length + depCost dep qnames) (sortStringsGo qnames) qnames
    with ⟨mf, out⟩
  rw [hv] at hB hO
  dsimp only at hO ⊢
  exact (hB.2 O hO D hD hDq).2 hDq

/-- C6 witness: on the acyclic chain a depends on b depends on c the
output places c before b and b before a. -/
theorem objectSort_dependency_order_witness :
    List.Sublist ["svc/c", "svc/b"] (ObjectInfoSliceSort depChain ["svc/b", "svc/c", "svc/a"]) ∧
    List.Sublist ["svc/b", "svc/a"] (ObjectInfoSliceSort depChain ["svc/b", "svc/c", "svc/a"]) :=
  ⟨objectSort_dependency_order depChain ["svc/b", "svc/c", "svc/a"] rkChain (by decide)
      (by decide) "svc/b" (by decide) "svc/c" (by decide) (by decide),
   objectSort_dependency_order depChain ["svc/b", "svc/c", "svc/a"] rkChain (by decide)
      (by decide) "svc/a" (by decide) "svc/b" (by decide) (by decide)⟩

end Dpctl
